import Mathlib

/-!
Verification development for the gubernator (g8r) build tool.

The Go source is shallowly embedded here:

* Go strings and byte slices are byte lists (`GoStr := List Nat`).
* The `hash.Hash` interface is instantiated with the *free* hasher: the
  hasher state is the list of absorbed bytes, `Write` is append and
  `Sum(nil)` returns the absorbed stream itself.  This is the universal
  collision-free hasher: two digests are equal exactly when the absorbed
  byte streams are equal, which is the abstraction the spec's hashing
  claims quantify over.
* The filesystem visible to the freezer is a map from relative paths to
  (mode, content); glob expansion over the fixed package root is a
  function from a pattern to the list of matched relative paths
  (`doublestar.Glob` composed with `filepath.Rel`, which are external to
  this repository).
* The cache (`FileSystemCache` / the `Cache` interface) is observed
  through the log of committed entries.
-/

namespace G8r

/-- Go strings / byte slices, as lists of bytes. -/
abbrev GoStr := List Nat

/-- One hex digit, lowercase, as in Go's `encoding/hex`. -/
def hexDigit (n : Nat) : Nat :=
  if n < 10 then 48 + n else 87 + n

/-- `hex.EncodeToString`: each byte becomes two lowercase hex digit bytes. -/
def hexEncode (bs : GoStr) : GoStr :=
  (bs.map (fun b => [hexDigit (b / 16), hexDigit (b % 16)])).flatten

/-- The three permission-octet bytes absorbed by `hashFile` in freeze.go:
`byte(mode >> 6 & 0o007), byte(mode >> 3 & 0o007), byte(mode & 0o007)`. -/
def modeBytes (mode : Nat) : GoStr :=
  [mode / 2 ^ 6 % 8, mode / 2 ^ 3 % 8, mode % 8]

/-- The copy loop of `io.Copy(w, &HashingReader{Reader: f, Hasher: hasher})`.

`io.Copy` repeatedly calls `Read(buf)` on a fixed buffer.  `HashingReader.Read`
(part_008) forwards the read, then calls `hr.Hasher.Write(buf)` on the WHOLE
buffer (not `buf[:n]`), so after each read the hasher absorbs the full buffer:
the `n` freshly read bytes followed by the stale tail of the buffer.  The final
read returns `(0, io.EOF)` and absorbs the unchanged buffer once more.  The
first argument is the buffer size, the second is fuel (one unit per read call;
`rem.length + 1` suffices since every non-final read consumes at least one
byte when the buffer size is positive). -/
def copyAbsorb (bufSize : Nat) : Nat → List Nat → List Nat → List Nat
  | 0, _, _ => []
  | _ + 1, buf, [] => buf
  | fuel + 1, buf, r :: rest =>
      let k := min bufSize (r :: rest).length
      let buf2 := (r :: rest).take k ++ buf.drop k
      buf2 ++ copyAbsorb bufSize fuel buf2 ((r :: rest).drop k)

/-- `io.Copy` uses a 32 KiB buffer (zero-initialised) for plain readers. -/
def goCopyBufSize : Nat := 32 * 1024

/-- The byte stream absorbed by the hasher while `io.Copy` streams `content`
through a `HashingReader` (freeze.go's `hashFile`). -/
def hashingCopyAbsorb (content : List Nat) : List Nat :=
  copyAbsorb goCopyBufSize (content.length + 1) (List.replicate goCopyBufSize 0) content

/-- `strings.ReplaceAll m old new` for nonempty `old`: scan left to right and
replace each (non-overlapping) occurrence of `old` with `new`.  The freezer
only calls this with `old = "${" + key + "}"`, which is never empty. -/
def replaceAll (s old new : List Nat) : List Nat :=
  match s with
  | [] => []
  | c :: rest =>
    if h : old ≠ [] ∧ old.isPrefixOf (c :: rest) then
      new ++ replaceAll ((c :: rest).drop old.length) old new
    else
      c :: replaceAll rest old new
termination_by s.length
decreasing_by
  · simp only [List.length_drop, List.length_cons]
    have hle : old.length ≤ (c :: rest).length :=
      (List.isPrefixOf_iff_prefix.mp h.2).length_le
    have hpos : 0 < old.length := List.length_pos.mpr h.1
    simp only [List.length_cons] at hle
    omega
  · simp

/-- The substitution placeholder `"${" + key + "}"` (bytes 36 '$', 123, 125). -/
def subPat (key : GoStr) : GoStr := [36, 123] ++ key ++ [125]

/-- Go string comparison `a <= b`: bytewise lexicographic, a proper prefix
is smaller. -/
def goStrLeB : GoStr → GoStr → Bool
  | [], _ => true
  | _ :: _, [] => false
  | a :: as, b :: bs => if a < b then true else if b < a then false else goStrLeB as bs

/-- The ordering relation used by `sort.Strings`. -/
def goStrLe (a b : GoStr) : Prop := goStrLeB a b = true

instance : DecidableRel goStrLe := fun a b =>
  inferInstanceAs (Decidable (goStrLeB a b = true))

theorem goStrLeB_total : ∀ a b, goStrLeB a b = true ∨ goStrLeB b a = true := by
  intro a
  induction a with
  | nil => intro b; left; rfl
  | cons x xs ih =>
    intro b
    cases b with
    | nil => right; rfl
    | cons y ys =>
      by_cases hxy : x < y
      · left; simp [goStrLeB, hxy]
      · by_cases hyx : y < x
        · right; simp [goStrLeB, hyx, hxy]
        · have hx : ¬ x < y := hxy
          rcases ih ys with h | h
          · left; simp [goStrLeB, hxy, hyx, h]
          · right; simp [goStrLeB, hxy, hyx, h]

theorem goStrLeB_trans : ∀ a b c, goStrLeB a b = true → goStrLeB b c = true →
    goStrLeB a c = true := by
  intro a
  induction a with
  | nil => intro b c _ _; rfl
  | cons x xs ih =>
    intro b c hab hbc
    cases b with
    | nil => simp [goStrLeB] at hab
    | cons y ys =>
      cases c with
      | nil => simp [goStrLeB] at hbc
      | cons z zs =>
        simp only [goStrLeB] at hab hbc ⊢
        split at hab
        next hxy =>
          split at hbc
          next hyz => rw [if_pos (by omega)]
          next hyz =>
            split at hbc
            next hzy => cases hbc
            next hzy => rw [if_pos (by omega)]
        next hxy =>
          split at hab
          next hyx => cases hab
          next hyx =>
            split at hbc
            next hyz => rw [if_pos (by omega)]
            next hyz =>
              split at hbc
              next hzy => cases hbc
              next hzy =>
                rw [if_neg (by omega), if_neg (by omega)]
                exact ih ys zs hab hbc

theorem goStrLeB_antisymm : ∀ a b, goStrLeB a b = true → goStrLeB b a = true →
    a = b := by
  intro a
  induction a with
  | nil =>
    intro b _ hba
    cases b with
    | nil => rfl
    | cons y ys => simp [goStrLeB] at hba
  | cons x xs ih =>
    intro b hab hba
    cases b with
    | nil => simp [goStrLeB] at hab
    | cons y ys =>
      simp only [goStrLeB] at hab hba
      split at hab
      next hxy =>
        split at hba
        next hyx => exact absurd hxy (by omega)
        next hyx => cases hba
      next hxy =>
        split at hab
        next hyx => cases hab
        next hyx =>
          have hxeqy : x = y := by omega
          subst hxeqy
          split at hba
          next h => exact absurd h (by omega)
          next h => rw [ih ys hab hba]

instance : IsTotal GoStr goStrLe := ⟨fun a b => goStrLeB_total a b⟩

instance : IsTrans GoStr goStrLe := ⟨fun a b c => goStrLeB_trans a b c⟩

instance : IsAntisymm GoStr goStrLe := ⟨fun a b => goStrLeB_antisymm a b⟩

/-- `sort.Strings`: sort byte strings lexicographically. -/
def sortStrings (l : List GoStr) : List GoStr :=
  List.insertionSort goStrLe l

/-- The pattern-deduplication loop of `GlobGroup.matches`: skip a glob that
was already seen, preserving first-occurrence order. -/
def dedupeAux (seen : List GoStr) : List GoStr → List GoStr
  | [] => []
  | g :: rest =>
    if g ∈ seen then dedupeAux seen rest
    else g :: dedupeAux (g :: seen) rest

/-- A committed cache entry, as observed through the `Cache` interface:
`NewFileEntry` commits a file under a key; `NewDirEntry` commits a directory
of (relative path, mode, content) files under a key. -/
inductive CacheEntry where
  | file (key : GoStr) (mode : Nat) (content : GoStr)
  | dir (key : GoStr) (files : List (GoStr × Nat × GoStr))
deriving DecidableEq

abbrev Log := List CacheEntry

/-- The `Derivation` struct (part_003): ID, Hash, Dependencies, Builder,
Args, Env. -/
inductive Derivation where
  | mk (id : GoStr) (hash : GoStr) (dependencies : List Derivation)
      (builder : GoStr) (args : List GoStr) (env : List GoStr)

def Derivation.id : Derivation → GoStr
  | .mk i _ _ _ _ _ => i

def Derivation.hash : Derivation → GoStr
  | .mk _ h _ _ _ _ => h

def Derivation.dependencies : Derivation → List Derivation
  | .mk _ _ d _ _ _ => d

def Derivation.builder : Derivation → GoStr
  | .mk _ _ _ b _ _ => b

def Derivation.args : Derivation → List GoStr
  | .mk _ _ _ _ a _ => a

def Derivation.env : Derivation → List GoStr
  | .mk _ _ _ _ _ e => e

/-- The `ArgValue` struct: Value, Hash, Derivations. -/
structure ArgValue where
  value : GoStr
  hash : GoStr
  derivations : List Derivation

/- The `Target` / `Arg` / `Sub` / `Substitution` object graph delivered by
the configuration-language adapter (part_009); `Arg` is the closed variant
set String / Path / GlobGroup / *Target / *Sub. -/
mutual
inductive Arg where
  | str (s : GoStr)
  | path (p : GoStr)
  | glob (patterns : List GoStr)
  | target (t : Target)
  | sub (s : Sub)

inductive Target where
  | mk (name : GoStr) (builder : GoStr) (args : List Arg) (env : List GoStr)

inductive Sub where
  | mk (format : GoStr) (substitutions : List Substitution)

inductive Substitution where
  | mk (key : GoStr) (value : Arg)
end

def Target.name : Target → GoStr
  | .mk n _ _ _ => n

def Target.builder : Target → GoStr
  | .mk _ b _ _ => b

def Target.args : Target → List Arg
  | .mk _ _ a _ => a

def Target.env : Target → List GoStr
  | .mk _ _ _ e => e

def Substitution.key : Substitution → GoStr
  | .mk k _ => k

def Substitution.value : Substitution → Arg
  | .mk _ v => v

/-- The filesystem below the package root, and glob expansion over it.
`file p` is the (mode, content) of the file at relative path `p`, if it
exists; `glob pat` is the list of relative paths `doublestar.Glob` matches
for `pat` under the package root (in the enumeration order the library
happens to produce), already composed with `filepath.Rel packageRoot`. -/
structure Fs where
  file : GoStr → Option (Nat × GoStr)
  glob : GoStr → List GoStr

/-- Freezing errors; source-file I/O errors carry the failing path. -/
inductive FreezeErr where
  | fileNotFound (p : GoStr)
deriving DecidableEq

/-- The per-file hashing step of `GlobGroup.freezeArg`'s directory entry:
for each matched path absorb its relative path, the mode-octet triplet, then
the content via the `HashingReader` copy; record the registered file. -/
def globFiles (f : Fs) : List GoStr → GoStr → List (GoStr × Nat × GoStr) →
    Except FreezeErr (GoStr × List (GoStr × Nat × GoStr))
  | [], hasher, files => .ok (hasher, files)
  | p :: rest, hasher, files =>
    match f.file p with
    | none => .error (.fileNotFound p)
    | some (mode, content) =>
        globFiles f rest (hasher ++ p ++ modeBytes mode ++ hashingCopyAbsorb content)
          (files ++ [(p, mode, content)])

mutual
/-- `freezeTarget` (freeze.go 33-68): fresh hasher; absorb name, builder,
each env entry; loop over args accumulating dependencies, arg hashes and
frozen values; emit the `Derivation` literal (whose `Hash` field the Go
code does not set, hence `[]`). -/
def freezeTarget (f : Fs) : Target → Except FreezeErr (Derivation × GoStr × Log)
  | .mk name builder args env =>
    match freezeArgLoop f args (env.foldl (· ++ ·) (([] ++ name) ++ builder)) [] [] [] with
    | .error e => .error e
    | .ok (hasher, deps, frozen, log) =>
        .ok (Derivation.mk (hexEncode hasher ++ [45] ++ name) [] deps builder frozen env,
          hasher, log)

/-- The `for i, arg := range t.Args` loop of `freezeTarget`. -/
def freezeArgLoop (f : Fs) : List Arg → GoStr → List Derivation → List GoStr → Log →
    Except FreezeErr (GoStr × List Derivation × List GoStr × Log)
  | [], hasher, deps, frozen, log => .ok (hasher, deps, frozen, log)
  | a :: rest, hasher, deps, frozen, log =>
    match freezeArg f a with
    | .error e => .error e
    | .ok (v, l) =>
        freezeArgLoop f rest (hasher ++ v.hash) (deps ++ v.derivations)
          (frozen ++ [v.value]) (log ++ l)

/-- The `freezeArg` methods of the five `Arg` variants (freeze.go). -/
def freezeArg (f : Fs) : Arg → Except FreezeErr (ArgValue × Log)
  | .str s => .ok (⟨s, [] ++ s, []⟩, [])
  | .target t =>
    match freezeTarget f t with
    | .error e => .error e
    | .ok (d, h, log) => .ok (⟨d.id, h, [d]⟩, log)
  | .path p =>
    match f.file p with
    | none => .error (.fileNotFound p)
    | some (mode, content) =>
        let h := [] ++ p ++ modeBytes mode ++ hashingCopyAbsorb content
        let key := hexEncode h ++ [47] ++ p
        .ok (⟨key, h, []⟩, [CacheEntry.file key mode content])
  | .glob patterns =>
    let paths := sortStrings ((dedupeAux [] patterns).map f.glob).flatten
    match globFiles f paths [] [] with
    | .error e => .error e
    | .ok (h, files) =>
        .ok (⟨hexEncode h, h, []⟩, [CacheEntry.dir (hexEncode h) files])
  | .sub (.mk format subs) =>
    match freezeSubLoop f subs ([] ++ format) format [] [] with
    | .error e => .error e
    | .ok (hasher, message, derivs, log) => .ok (⟨message, hasher, derivs⟩, log)

/-- The substitution loop of `Sub.freezeArg` (freeze.go 197-210). -/
def freezeSubLoop (f : Fs) : List Substitution → GoStr → GoStr → List Derivation → Log →
    Except FreezeErr (GoStr × GoStr × List Derivation × Log)
  | [], hasher, message, derivs, log => .ok (hasher, message, derivs, log)
  | .mk key value :: rest, hasher, message, derivs, log =>
    match freezeArg f value with
    | .error e => .error e
    | .ok (v, l) =>
        freezeSubLoop f rest (hasher ++ key ++ v.hash)
          (replaceAll message (subPat key) v.value) (derivs ++ v.derivations) (log ++ l)
end

/-- `FreezeTarget` (the exported entry point) discards the raw hash. -/
def FreezeTarget (f : Fs) (t : Target) : Except FreezeErr (Derivation × Log) :=
  match freezeTarget f t with
  | .error e => .error e
  | .ok (d, _, log) => .ok (d, log)

/-!
## The builder (part_000): `Build`, `makeImmutable`, and the driver
-/

/-- A filesystem tree with a mode on every node, for the immutability pass. -/
inductive FsNode where
  | file (mode : Nat)
  | dir (mode : Nat) (children : List FsNode)

/-- `^os.FileMode(0b111111111) | 0b101101101`: over the 32-bit `FileMode`,
the complement of the low nine bits, OR-ed with `0o555`. -/
def immutableMask : Nat := ((2 ^ 32 - 1) - 0o777) ||| 0o555

mutual
/-- `makeImmutableHelper` (part_000 116-141): recursively chmod every node
to `fi.Mode() & immutableMask` (children first, then the node itself; the
resulting tree does not depend on that order). -/
def makeImmutableNode : FsNode → FsNode
  | .file m => .file (m &&& immutableMask)
  | .dir m cs => .dir (m &&& immutableMask) (makeImmutableChildren cs)

/-- The `ioutil.ReadDir` loop of `makeImmutableHelper`. -/
def makeImmutableChildren : List FsNode → List FsNode
  | [] => []
  | c :: rest => makeImmutableNode c :: makeImmutableChildren rest
end

/-- All modes in a tree, in preorder. -/
def FsNode.modes : FsNode → List Nat
  | .file m => [m]
  | .dir m cs => m :: modesChildren cs
where
  modesChildren : List FsNode → List Nat
    | [] => []
    | c :: rest => c.modes ++ modesChildren rest

/-- Go error values as the builder observes them.  `pkg/errors` wrapping
(`errors.Wrap`, `errors.Wrapf`, `errors.Errorf`) produces values on which
`os.IsNotExist` reports false, because it only inspects the outermost error
(it unwraps `*PathError` and friends, not `pkg/errors` wrappers).  Contexts
are encoded as constructors rather than message strings. -/
inductive GoErr where
  | notExist
  | otherRaw
  | errNoOutput
  | wrapOutput (inner : GoErr)
  | wrapChmod (inner : GoErr)
  | wrapMove (inner : GoErr)
  | wrapCopy (inner : GoErr)
deriving DecidableEq

/-- `os.IsNotExist` on the modelled error values: true only on a bare
not-exist error, never through a `pkg/errors` wrapper. -/
def osIsNotExist : GoErr → Bool
  | .notExist => true
  | _ => false

/-- `makeImmutable` (part_000 108-114): `os.Stat` the output path — a
missing path yields a bare not-exist error — then run the chmod walk. -/
def makeImmutableM (out : Option FsNode) : Except GoErr FsNode :=
  match out with
  | none => .error .notExist
  | some t => .ok (makeImmutableNode t)

/-- `FileSystemCache.MoveFile` (filesystemcache.go 78-136): try `os.Rename`;
on any rename failure fall back to a streaming copy via `NewFileEntry` and
wrap whatever that returns (`errors.Wrapf` of `nil` is `nil`).  Every error
it can return is therefore a `pkg/errors`-wrapped value. -/
def moveFileM (renameErr : Option GoErr) (fallbackErr : Option GoErr) : Option GoErr :=
  match renameErr with
  | none => none
  | some _ =>
    match fallbackErr with
    | none => none
    | some fe => some (.wrapCopy fe)

/-- `Build` (part_000 57-106) after the temp dir is set up, parameterised by
the builder process result (`runErr`), whether/what the builder wrote at the
`$out` path (`out`), and the rename/copy outcomes inside `MoveFile`:
a failed run is wrapped with the captured output; then `makeImmutable` runs
on the output path; then `MoveFile` moves it into the cache, and only a
`MoveFile` error satisfying `os.IsNotExist` becomes the distinct
"Builder succeeded but didn't create output file" error. -/
def buildM (runErr : Option GoErr) (out : Option FsNode)
    (renameErr fallbackErr : Option GoErr) : Option GoErr :=
  match runErr with
  | some e => some (.wrapOutput e)
  | none =>
    match makeImmutableM out with
    | .error e => some (.wrapChmod e)
    | .ok _ =>
      match moveFileM renameErr fallbackErr with
      | none => none
      | some e => if osIsNotExist e then some .errNoOutput else some (.wrapMove e)

/-!
## The build driver (part_000 22-44): `BuildRecursive`

The cache is observed as the list of keys present; `Build` is taken on its
success path (the builder is invoked — logged in `builds` — and the output
is committed under `d.ID` — logged in `commits` and added to the cache).
-/

/-- Driver state: keys present in the cache, plus logs of builder
invocations and cache commits (in order). -/
structure BState where
  cache : List GoStr
  builds : List GoStr
  commits : List GoStr
deriving DecidableEq

/-- A successful `Build`: one builder invocation, one commit of `d.ID`. -/
def addBuild (i : GoStr) (s : BState) : BState :=
  ⟨i :: s.cache, s.builds ++ [i], s.commits ++ [i]⟩

/-- A derivation node together with everything reachable from it. -/
def closure : Derivation → List Derivation
  | .mk i h deps b a e => .mk i h deps b a e :: closureL deps
where
  closureL : List Derivation → List Derivation
    | [] => []
    | d :: rest => closure d ++ closureL rest

/-- `BuildRecursive`: return if `d.ID` is cached; otherwise build the
dependencies in order, then build `d`. -/
def buildRec : Derivation → BState → BState
  | .mk i h deps b a e, s =>
    if i ∈ s.cache then s
    else addBuild i (buildRecL deps s)
where
  buildRecL : List Derivation → BState → BState
    | [], s => s
    | d :: rest, s => buildRecL rest (buildRec d s)

/-!
## The module loader (starlark.go 395-563)
-/

/-- Module-loading errors.  `loadWrapped module notExist` stands for the
"Loading module" wrap of the read error (with a not-exist error first
rewritten to the module-not-found message); `execErr` is an error coming
out of `starlark.ExecFile`. -/
inductive LoadErr where
  | cycle
  | packageNotFound (pkg : GoStr)
  | moduleNotFound (pkg : GoStr) (module : GoStr)
  | loadWrapped (module : GoStr) (notExist : Bool)
  | execErr (code : Nat)
deriving DecidableEq

/-- `parseModule`: split at the first ':' (byte 58) into (package, module);
no ':' means the caller's own package (empty package name). -/
def parseModule (s : GoStr) : GoStr × GoStr :=
  match s.findIdx? (· = 58) with
  | none => ([], s)
  | some i => (s.take i, s.drop (i + 1))

/-- `filepath.Join` of two path segments (path cleaning is irrelevant to
the claims settled here). -/
def pathJoin (a b : GoStr) : GoStr :=
  if a = [] then b else if b = [] then a else a ++ [47] ++ b

/-- The bytes of ".star". -/
def starSuffix : GoStr := [46, 115, 116, 97, 114]

/-- `resolveModule` (starlark.go 485-514): look the package up in the
package map (empty package means the current root); reject modules
containing ".."; default to `default.star` when the module does not end in
".star". -/
def resolveModule (root : GoStr) (packages : List (GoStr × GoStr))
    (pkg module : GoStr) : Except LoadErr (GoStr × GoStr) :=
  match hroot : if pkg = [] then some root else (packages.lookup pkg) with
  | none => .error (.packageNotFound pkg)
  | some root2 =>
    if [46, 46] <:+: module then .error (.moduleNotFound pkg module)
    else
      let path := pathJoin root2 module
      if starSuffix.isSuffixOf module then .ok (root2, path)
      else .ok (root2, pathJoin path ([100, 101, 102, 97, 117, 108, 116] ++ starSuffix))

/-- The result of `ioutil.ReadFile`. -/
inductive ReadRes where
  | ok (data : GoStr)
  | errNotExist
  | errOther
deriving DecidableEq

/-- The loader's collaborators: the workspace root and package map fixed by
`makeLoader`, plus the filesystem read and `starlark.ExecFile` (the latter
is external to this repository; it returns a globals dictionary and/or an
error, and may itself re-enter the loader — re-entry is modelled by the
separate `loadStep` calls of the theorems). -/
structure LoaderCtx (G : Type) where
  root : GoStr
  packages : List (GoStr × GoStr)
  readFile : GoStr → ReadRes
  exec : GoStr → GoStr → Option G × Option LoadErr

/-- The load cache: `none` = never loaded, `some none` = the in-progress
placeholder (`cache[addr] = nil`), `some (some entry)` = a stored
`cacheEntry{globals, err}`. -/
abbrev LCache (G : Type) := List (GoStr × Option (Option G × Option LoadErr))

def lookupCache {G : Type} (c : LCache G) (addr : GoStr) :
    Option (Option (Option G × Option LoadErr)) :=
  c.lookup addr

/-- One invocation of the closure returned by `makeLoaderHelper`
(starlark.go 424-482): consult the cache (a nil placeholder means a load of
`addr` is already in progress → "Cycle in load graph"); otherwise record
the placeholder, parse and resolve the address, read the module file, and
only after a successful read execute it and store the entry. -/
def loadStep {G : Type} (ctx : LoaderCtx G) (cache : LCache G) (addr : GoStr) :
    (Option G × Option LoadErr) × LCache G :=
  match lookupCache cache addr with
  | some (some e) => ((e.1, e.2), cache)
  | some none => ((none, some .cycle), cache)
  | none =>
    let cache1 := (addr, none) :: cache
    let pm := parseModule addr
    match resolveModule ctx.root ctx.packages pm.1 pm.2 with
    | .error e => ((none, some e), cache1)
    | .ok (_, path) =>
      match ctx.readFile path with
      | .errNotExist => ((none, some (.loadWrapped pm.2 true)), cache1)
      | .errOther => ((none, some (.loadWrapped pm.2 false)), cache1)
      | .ok data =>
        let ge := ctx.exec addr data
        ((ge.1, ge.2), (addr, some (ge.1, ge.2)) :: cache1)

/-!
## Helper observations on the freezer
-/

/-- The raw target hash (`freezeTarget`'s second return value), when
freezing succeeds. -/
def freezeHash (f : Fs) (t : Target) : Option GoStr :=
  match freezeTarget f t with
  | .ok (_, h, _) => some h
  | .error _ => none

/-- The `Derivation` emitted for a target, when freezing succeeds. -/
def freezeDerivationOf (f : Fs) (t : Target) : Option Derivation :=
  match freezeTarget f t with
  | .ok (d, _, _) => some d
  | .error _ => none

/-- The `Hash` field of the emitted `Derivation`. -/
def derivHashField (f : Fs) (t : Target) : Option GoStr :=
  (freezeDerivationOf f t).map Derivation.hash

/-- The `ArgValue.Hash` of a frozen argument, when freezing succeeds. -/
def argHashOf (f : Fs) (a : Arg) : Option GoStr :=
  match freezeArg f a with
  | .ok (v, _) => some v.hash
  | .error _ => none

/-- Freeze a list of args independently, collecting the `ArgValue`s and the
committed cache entries (each arg freezes with its own fresh hasher, so the
per-arg results do not interact). -/
def freezeArgsM (f : Fs) : List Arg → Except FreezeErr (List ArgValue × Log)
  | [] => .ok ([], [])
  | a :: rest =>
    match freezeArg f a with
    | .error e => .error e
    | .ok (v, l) =>
      match freezeArgsM f rest with
      | .error e => .error e
      | .ok (vs, l2) => .ok (v :: vs, l ++ l2)

/-- Freeze the values of a substitution list independently. -/
def freezeSubsM (f : Fs) : List Substitution → Except FreezeErr (List ArgValue × Log)
  | [] => .ok ([], [])
  | sub :: rest =>
    match freezeArg f sub.value with
    | .error e => .error e
    | .ok (v, l) =>
      match freezeSubsM f rest with
      | .error e => .error e
      | .ok (vs, l2) => .ok (v :: vs, l ++ l2)

/-- An empty filesystem (no files, no glob matches), for targets whose
arguments never touch the disk. -/
def fsEmpty : Fs := ⟨fun _ => none, fun _ => []⟩

/-!
## Bitwise helper lemmas for the immutability pass
-/

theorem land_lor_distrib (m a b : Nat) :
    m &&& (a ||| b) = (m &&& a) ||| (m &&& b) := by
  apply Nat.eq_of_testBit_eq
  intro i
  simp [Nat.testBit_land, Nat.testBit_lor, Bool.and_or_distrib_left]

theorem land_land_zero (m a c : Nat) (h : a &&& c = 0) : (m &&& a) &&& c = 0 := by
  apply Nat.eq_of_testBit_eq
  intro i
  have h2 := congrArg (fun x => Nat.testBit x i) h
  simp only [Nat.testBit_land, Nat.zero_testBit] at h2 ⊢
  cases hm : Nat.testBit m i <;> cases ha : Nat.testBit a i <;>
    cases hc : Nat.testBit c i <;> simp_all

theorem lor_land_zero (x y c : Nat) (hx : x &&& c = 0) (hy : y &&& c = 0) :
    (x ||| y) &&& c = 0 := by
  apply Nat.eq_of_testBit_eq
  intro i
  have h2 := congrArg (fun z => Nat.testBit z i) hx
  have h3 := congrArg (fun z => Nat.testBit z i) hy
  simp only [Nat.testBit_land, Nat.testBit_lor, Nat.zero_testBit] at h2 h3 ⊢
  cases hX : Nat.testBit x i <;> cases hY : Nat.testBit y i <;>
    cases hc : Nat.testBit c i <;> simp_all

/-- `m & immutableMask` keeps the high (type) bits and the read/execute
bits of `m`, and nothing else. -/
theorem land_immutableMask (m : Nat) :
    m &&& immutableMask = (m &&& ((2 ^ 32 - 1) - 0o777)) ||| (m &&& 0o555) := by
  rw [immutableMask.eq_def, land_lor_distrib]

mutual
theorem modes_makeImmutableNode :
    ∀ t : FsNode, (makeImmutableNode t).modes = t.modes.map (· &&& immutableMask)
  | .file m => by simp [makeImmutableNode, FsNode.modes]
  | .dir m cs => by
      simp [makeImmutableNode, FsNode.modes, modes_makeImmutableChildren cs]

theorem modes_makeImmutableChildren :
    ∀ l : List FsNode, FsNode.modes.modesChildren (makeImmutableChildren l) =
      (FsNode.modes.modesChildren l).map (· &&& immutableMask)
  | [] => by simp [makeImmutableChildren, FsNode.modes.modesChildren]
  | c :: rest => by
      simp [makeImmutableChildren, FsNode.modes.modesChildren,
        modes_makeImmutableNode c, modes_makeImmutableChildren rest]
end

/-!
## Claim theorems (first batch)
-/

/-- C3: when the builder process exits with status 0 but the expected
output path does not exist, `Build` does NOT return the distinct
"Builder succeeded but didn't create output file" error: `makeImmutable`
runs before the move, its `os.Stat` fails with a bare not-exist error, and
`Build` returns that error wrapped as "Chmodding output artifact".  In
fact the distinct error is unreachable on every input, because `MoveFile`
only ever returns `pkg/errors`-wrapped values, on which `os.IsNotExist`
is false. -/
theorem build_missing_output_returns_chmod_error :
    buildM none none none none = some (GoErr.wrapChmod GoErr.notExist) ∧
    some (GoErr.wrapChmod GoErr.notExist) ≠ some GoErr.errNoOutput ∧
    (∀ runErr out renameErr fallbackErr,
      buildM runErr out renameErr fallbackErr ≠ some GoErr.errNoOutput) := by
  refine ⟨rfl, by decide, ?_⟩
  intro runErr out renameErr fallbackErr h
  cases runErr <;> cases out <;> cases renameErr <;> cases fallbackErr <;>
    simp [buildM, makeImmutableM, moveFileM, osIsNotExist] at h

/-- C4 counterexample: the immutability pass chmods a mode-0644 file to
0444, not to `(0o644 & ~0o777) | 0o555 = 0o555` as the claim states: the
read/execute bits are not forced on. -/
theorem makeImmutable_0644_counterexample :
    (makeImmutableNode (FsNode.file 0o644)).modes = [0o444] ∧
    ([0o444] : List Nat) ≠ [(0o644 &&& ((2 ^ 32 - 1) - 0o777)) ||| 0o555] := by
  constructor
  · rw [modes_makeImmutableNode]
    simp only [FsNode.modes, List.map_cons, List.map_nil, land_immutableMask]
    decide
  · decide

/-- C4 (amended): for every node reachable under the builder output, the
immutability pass sets its mode to `old_mode & (~0o777 | 0o555)` — all
write bits cleared, read/execute bits *preserved* from the old mode (not
forced on), type and high bits unchanged — and consequently every
resulting mode satisfies `mode & 0o222 == 0`. -/
theorem makeImmutable_modes_spec (t : FsNode) :
    (makeImmutableNode t).modes =
      t.modes.map (fun m => (m &&& ((2 ^ 32 - 1) - 0o777)) ||| (m &&& 0o555)) ∧
    ∀ m ∈ (makeImmutableNode t).modes, m &&& 0o222 = 0 := by
  have hhi : ((2 ^ 32 - 1) - 0o777) &&& 0o222 = 0 := by decide
  have hlo : (0o555 : Nat) &&& 0o222 = 0 := by decide
  constructor
  · rw [modes_makeImmutableNode]
    exact List.map_congr_left fun m _ => land_immutableMask m
  · intro m hm
    rw [modes_makeImmutableNode] at hm
    obtain ⟨m0, _, rfl⟩ := List.mem_map.mp hm
    rw [land_immutableMask]
    exact lor_land_zero _ _ _
      (land_land_zero _ _ _ hhi)
      (land_land_zero _ _ _ hlo)

/-- C6: `freezeTarget` never assigns the `Hash` field of the `Derivation`
it emits (the struct literal at freeze.go 61-67 omits it), so the field
stays at its zero value even though the raw hash — here `"nb"` for the
target named `"n"` with builder `"b"` — is returned alongside and prefixes
the ID. -/
theorem derivation_hash_field_never_set :
    derivHashField fsEmpty (Target.mk [110] [98] [] []) = some [] ∧
    freezeHash fsEmpty (Target.mk [110] [98] [] []) = some [110, 98] ∧
    (some [] : Option GoStr) ≠ some [110, 98] := by
  refine ⟨?_, ?_, by decide⟩ <;>
    simp [derivHashField, freezeDerivationOf, freezeHash, freezeTarget,
      freezeArgLoop, Derivation.hash]

/-- `resolveModule` never reports a load-graph cycle. -/
theorem resolveModule_ne_cycle (root : GoStr) (packages : List (GoStr × GoStr))
    (pkg module : GoStr) (e : LoadErr)
    (h : resolveModule root packages pkg module = .error e) : e ≠ .cycle := by
  unfold resolveModule at h
  split at h
  · exact fun hc => by cases h; cases hc
  · split at h
    · exact fun hc => by cases h; cases hc
    · split at h <;> cases h

/-- A concrete loader context for the C10 witness: root "r", no packages,
every file read fails with not-exist, and a trivial executor. -/
def loaderCtxW : LoaderCtx Nat :=
  ⟨[114], [], fun _ => ReadRes.errNotExist, fun _ _ => (none, none)⟩

/-- C10: if loading a module identifier fails before its script executes
(package lookup failure, module path rejected, or the module file
unreadable), the load closure returns that failure but leaves the
in-progress placeholder (`cache[addr] = nil`) in the cache, so every later
load of the same identifier in the same invocation returns
"Cycle in load graph" — and leaves the cache unchanged — instead of the
original failure. -/
theorem loader_preexec_failure_poisons {G : Type} (ctx : LoaderCtx G)
    (cache : LCache G) (addr : GoStr)
    (h0 : lookupCache cache addr = none)
    (hfail :
      (∃ e, resolveModule ctx.root ctx.packages
        (parseModule addr).1 (parseModule addr).2 = .error e) ∨
      (∃ pr path, resolveModule ctx.root ctx.packages
          (parseModule addr).1 (parseModule addr).2 = .ok (pr, path) ∧
        ∀ d, ctx.readFile path ≠ .ok d)) :
    lookupCache (loadStep ctx cache addr).2 addr = some none ∧
    (loadStep ctx cache addr).1.2 ≠ some LoadErr.cycle ∧
    (loadStep ctx cache addr).1.2 ≠ none ∧
    (loadStep ctx (loadStep ctx cache addr).2 addr).1 =
      ((none : Option G), some LoadErr.cycle) ∧
    (loadStep ctx (loadStep ctx cache addr).2 addr).2 = (loadStep ctx cache addr).2 := by
  have hplace : ∀ c1 : LCache G, lookupCache ((addr, none) :: c1) addr = some none := by
    intro c1
    simp [lookupCache, List.lookup]
  rcases hfail with ⟨e, he⟩ | ⟨pr, path, hok, hread⟩
  · have hstep : loadStep ctx cache addr = ((none, some e), (addr, none) :: cache) := by
      simp [loadStep, h0, he]
    refine ⟨?_, ?_, ?_, ?_, ?_⟩ <;> rw [hstep]
    · exact hplace cache
    · simpa using resolveModule_ne_cycle _ _ _ _ _ he
    · simp
    · simp [loadStep, hplace cache]
    · simp [loadStep, hplace cache]
  · have hstep : (loadStep ctx cache addr).2 = (addr, none) :: cache ∧
        ∃ nx : Bool, (loadStep ctx cache addr).1 =
          (none, some (.loadWrapped (parseModule addr).2 nx)) := by
      cases hr : ctx.readFile path with
      | ok d => exact absurd hr (hread d)
      | errNotExist =>
          constructor
          · simp [loadStep, h0, hok, hr]
          · exact ⟨true, by simp [loadStep, h0, hok, hr]⟩
      | errOther =>
          constructor
          · simp [loadStep, h0, hok, hr]
          · exact ⟨false, by simp [loadStep, h0, hok, hr]⟩
    obtain ⟨hc, nx, hr1⟩ := hstep
    refine ⟨?_, ?_, ?_, ?_, ?_⟩
    · rw [hc]; exact hplace cache
    · rw [hr1]; simp
    · rw [hr1]; simp
    · rw [hc]; simp [loadStep, hplace cache]
    · rw [hc]; simp [loadStep, hplace cache]

/-- C10 witness: a workspace with no packages and no readable files; the
first load of module "m" fails reading the file, the placeholder stays,
and the second load reports a cycle. -/
theorem loader_preexec_failure_poisons_witness :
    (lookupCache (loadStep loaderCtxW ([] : LCache Nat) [109]).2 [109] = some none ∧
      (loadStep loaderCtxW ([] : LCache Nat) [109]).1.2 ≠ some LoadErr.cycle ∧
      (loadStep loaderCtxW ([] : LCache Nat) [109]).1.2 ≠ none ∧
      (loadStep loaderCtxW (loadStep loaderCtxW ([] : LCache Nat) [109]).2 [109]).1 =
        ((none : Option Nat), some LoadErr.cycle) ∧
      (loadStep loaderCtxW (loadStep loaderCtxW ([] : LCache Nat) [109]).2 [109]).2 =
        (loadStep loaderCtxW ([] : LCache Nat) [109]).2) :=
  loader_preexec_failure_poisons loaderCtxW [] [109] rfl
    (Or.inr ⟨[114], pathJoin (pathJoin [114] [109])
        ([100, 101, 102, 97, 117, 108, 116] ++ starSuffix),
      by rfl, fun d h => by simp [loaderCtxW] at h⟩)

/-!
## The freezer loops in closed form
-/

theorem foldl_append_eq (env : List GoStr) :
    ∀ init : GoStr, env.foldl (· ++ ·) init = init ++ env.flatten := by
  induction env with
  | nil => intro init; simp
  | cons e rest ih => intro init; simp [List.foldl_cons, ih, List.append_assoc]

theorem freezeArgLoop_ok (f : Fs) :
    ∀ (args : List Arg) (vs : List ArgValue) (l2 : Log),
      freezeArgsM f args = .ok (vs, l2) →
      ∀ (hs : GoStr) (ds : List Derivation) (fz : List GoStr) (lg : Log),
        freezeArgLoop f args hs ds fz lg =
          .ok (hs ++ (vs.map (·.hash)).flatten,
            ds ++ (vs.map (·.derivations)).flatten,
            fz ++ vs.map (·.value),
            lg ++ l2) := by
  intro args
  induction args with
  | nil =>
      intro vs l2 h hs ds fz lg
      simp only [freezeArgsM] at h
      cases h
      simp [freezeArgLoop]
  | cons a rest ih =>
      intro vs l2 h hs ds fz lg
      simp only [freezeArgsM] at h
      cases he : freezeArg f a with
      | error e => rw [he] at h; cases h
      | ok vl =>
        obtain ⟨v, l⟩ := vl
        rw [he] at h
        cases hr : freezeArgsM f rest with
        | error e => rw [hr] at h; cases h
        | ok vsl =>
          obtain ⟨vs2, l2b⟩ := vsl
          rw [hr] at h
          cases h
          rw [freezeArgLoop, he]
          simp [ih vs2 l2b hr, List.append_assoc]

/-- C1: freezing a target feeds one fresh hasher exactly the bytes of the
name, then the builder, then each env entry in declaration order, then each
argument's `ArgValue.Hash` in argument order; the emitted derivation's ID
is `hex(hash) + "-" + name` (45 is '-'), its args are the frozen values in
argument order, and its dependencies are the concatenation, in argument
order, of every argument's derivations. -/
theorem freezeTarget_spec (f : Fs) (name builder : GoStr) (args : List Arg)
    (env : List GoStr) (vs : List ArgValue) (log : Log)
    (h : freezeArgsM f args = .ok (vs, log)) :
    freezeTarget f (Target.mk name builder args env) =
      .ok (Derivation.mk
          (hexEncode (name ++ builder ++ env.flatten ++ (vs.map (·.hash)).flatten)
            ++ [45] ++ name)
          []
          (vs.map (·.derivations)).flatten
          builder
          (vs.map (·.value))
          env,
        name ++ builder ++ env.flatten ++ (vs.map (·.hash)).flatten,
        log) := by
  have hfold : env.foldl (· ++ ·) (([] ++ name) ++ builder) =
      (name ++ builder) ++ env.flatten := by
    rw [foldl_append_eq]; simp
  rw [freezeTarget, hfold, freezeArgLoop_ok f args vs log h]
  simp [List.append_assoc]

/-- C1 witness: a concrete target with one string argument and one env
entry, frozen over the empty filesystem. -/
theorem freezeTarget_spec_witness :
    freezeArgsM fsEmpty [Arg.str [97]] = .ok ([⟨[97], [97], []⟩], []) ∧
    freezeTarget fsEmpty (Target.mk [110] [98] [Arg.str [97]] [[101]]) =
      .ok (Derivation.mk (hexEncode [110, 98, 101, 97] ++ [45] ++ [110])
          [] [] [98] [[97]] [[101]],
        [110, 98, 101, 97], []) := by
  have h : freezeArgsM fsEmpty [Arg.str [97]] = .ok ([⟨[97], [97], []⟩], []) := by
    simp [freezeArgsM, freezeArg]
  refine ⟨h, ?_⟩
  have h2 := freezeTarget_spec fsEmpty [110] [98] [Arg.str [97]] [[101]]
    [⟨[97], [97], []⟩] [] h
  simpa using h2

theorem freezeSubLoop_ok (f : Fs) :
    ∀ (subs : List Substitution) (vs : List ArgValue) (l2 : Log),
      freezeSubsM f subs = .ok (vs, l2) →
      ∀ (hs msg : GoStr) (dvs : List Derivation) (lg : Log),
        freezeSubLoop f subs hs msg dvs lg =
          .ok (hs ++ ((subs.zip vs).map (fun sv => sv.1.key ++ sv.2.hash)).flatten,
            List.foldl (fun m sv => replaceAll m (subPat sv.1.key) sv.2.value)
              msg (subs.zip vs),
            dvs ++ (vs.map (·.derivations)).flatten,
            lg ++ l2) := by
  intro subs
  induction subs with
  | nil =>
      intro vs l2 h hs msg dvs lg
      simp only [freezeSubsM] at h
      cases h
      simp [freezeSubLoop]
  | cons sub rest ih =>
      intro vs l2 h hs msg dvs lg
      obtain ⟨key, value⟩ := sub
      simp only [freezeSubsM] at h
      cases he : freezeArg f (Substitution.value (.mk key value)) with
      | error e => rw [he] at h; cases h
      | ok vl =>
        obtain ⟨v, l⟩ := vl
        rw [he] at h
        cases hr : freezeSubsM f rest with
        | error e => rw [hr] at h; cases h
        | ok vsl =>
          obtain ⟨vs2, l2b⟩ := vsl
          rw [hr] at h
          cases h
          rw [freezeSubLoop]
          rw [show freezeArg f value = .ok (v, l) from he]
          simp [ih vs2 l2b hr, List.append_assoc, Substitution.key, Substitution.value]

/-- C7: freezing `Sub(format, substitutions)` yields the value obtained by
folding over the substitutions in order — each step replacing every
occurrence of "${key}" in the running message with the child's frozen
value, so later substitutions see earlier output; the derivations are the
concatenation, in substitution order, of the children's derivations; and
the hash is a fresh hasher fed `format`, then for each substitution its
key followed by the child's hash. -/
theorem subFreeze_spec (f : Fs) (format : GoStr) (subs : List Substitution)
    (vs : List ArgValue) (log : Log)
    (h : freezeSubsM f subs = .ok (vs, log)) :
    freezeArg f (Arg.sub (Sub.mk format subs)) =
      .ok (⟨List.foldl (fun m sv => replaceAll m (subPat sv.1.key) sv.2.value)
            format (subs.zip vs),
          format ++ ((subs.zip vs).map (fun sv => sv.1.key ++ sv.2.hash)).flatten,
          (vs.map (·.derivations)).flatten⟩,
        log) := by
  rw [freezeArg, freezeSubLoop_ok f subs vs log h]
  simp

/-- C7 witness: `Sub("${k}", [(k, String "ab")])` over the empty
filesystem. -/
theorem subFreeze_spec_witness :
    freezeSubsM fsEmpty [Substitution.mk [107] (Arg.str [97, 98])] =
      .ok ([⟨[97, 98], [97, 98], []⟩], []) ∧
    freezeArg fsEmpty (Arg.sub (Sub.mk [36, 123, 107, 125]
        [Substitution.mk [107] (Arg.str [97, 98])])) =
      .ok (⟨[97, 98], [36, 123, 107, 125, 107, 97, 98], []⟩, []) := by
  have h : freezeSubsM fsEmpty [Substitution.mk [107] (Arg.str [97, 98])] =
      .ok ([⟨[97, 98], [97, 98], []⟩], []) := by
    simp [freezeSubsM, freezeArg, Substitution.value]
  refine ⟨h, ?_⟩
  have h2 := subFreeze_spec fsEmpty [36, 123, 107, 125]
    [Substitution.mk [107] (Arg.str [97, 98])] [⟨[97, 98], [97, 98], []⟩] [] h
  rw [h2]
  simp [Substitution.key, Substitution.value, subPat, replaceAll]

/-- Cancelling a common prefix of byte lists. -/
theorem appendCancel (p a b : List Nat) : p ++ a = p ++ b ↔ a = b := by
  induction p with
  | nil => simp
  | cons c rest ih => simp [ih]

/-- C5 counterexample: swapping the env entries "aa" and "a" is a
non-identity permutation of the env list, yet the target hash is
unchanged: the env entries are absorbed by plain concatenation, so the
hasher input — and hence the digest under any hasher, collision-free or
not — is identical. -/
theorem freeze_reorder_counterexample :
    freezeHash fsEmpty (Target.mk [110] [98] [] [[97, 97], [97]]) =
      freezeHash fsEmpty (Target.mk [110] [98] [] [[97], [97, 97]]) ∧
    ([[97, 97], [97]] : List GoStr) ≠ [[97], [97, 97]] ∧
    List.Perm ([[97, 97], [97]] : List GoStr) [[97], [97, 97]] := by
  refine ⟨?_, by decide, List.Perm.swap [97] [97, 97] []⟩
  simp [freezeHash, freezeTarget, freezeArgLoop]

/-- C5 (amended): replacing `target.args` and/or `target.env` by other
lists (in particular by permutations of them) changes the top-level hash
exactly when it changes the concatenated hasher input — the env entries
concatenated followed by the arg hashes concatenated.  Permutations that
preserve that concatenation (such as swapping env entries "aa" and "a")
leave the hash unchanged. -/
theorem freeze_reorder_hash_iff (f : Fs) (name builder : GoStr)
    (args args2 : List Arg) (env env2 : List GoStr)
    (vs vs2 : List ArgValue) (log log2 : Log)
    (ha : freezeArgsM f args = .ok (vs, log))
    (hb : freezeArgsM f args2 = .ok (vs2, log2)) :
    (freezeHash f (Target.mk name builder args env) =
      freezeHash f (Target.mk name builder args2 env2)) ↔
    env.flatten ++ (vs.map (·.hash)).flatten =
      env2.flatten ++ (vs2.map (·.hash)).flatten := by
  rw [freezeHash, freezeHash,
    freezeTarget_spec f name builder args env vs log ha,
    freezeTarget_spec f name builder args2 env2 vs2 log2 hb]
  simp only [Option.some.injEq, List.append_assoc, appendCancel]

/-- C5 witness: swapping two string args "a", "b" changes the concatenated
arg-hash stream, so by the iff the hashes differ. -/
theorem freeze_reorder_hash_iff_witness :
    ((freezeHash fsEmpty (Target.mk [110] [98] [Arg.str [97], Arg.str [98]] []) =
      freezeHash fsEmpty (Target.mk [110] [98] [Arg.str [98], Arg.str [97]] [])) ↔
      (([] : List GoStr).flatten ++
          (([⟨[97], [97], []⟩, ⟨[98], [98], []⟩] : List ArgValue).map (·.hash)).flatten =
        ([] : List GoStr).flatten ++
          (([⟨[98], [98], []⟩, ⟨[97], [97], []⟩] : List ArgValue).map (·.hash)).flatten)) ∧
    freezeHash fsEmpty (Target.mk [110] [98] [Arg.str [97], Arg.str [98]] []) ≠
      freezeHash fsEmpty (Target.mk [110] [98] [Arg.str [98], Arg.str [97]] []) := by
  have ha : freezeArgsM fsEmpty [Arg.str [97], Arg.str [98]] =
      .ok ([⟨[97], [97], []⟩, ⟨[98], [98], []⟩], []) := by
    simp [freezeArgsM, freezeArg]
  have hb : freezeArgsM fsEmpty [Arg.str [98], Arg.str [97]] =
      .ok ([⟨[98], [98], []⟩, ⟨[97], [97], []⟩], []) := by
    simp [freezeArgsM, freezeArg]
  have hiff := freeze_reorder_hash_iff fsEmpty [110] [98]
    [Arg.str [97], Arg.str [98]] [Arg.str [98], Arg.str [97]] [] []
    [⟨[97], [97], []⟩, ⟨[98], [98], []⟩] [⟨[98], [98], []⟩, ⟨[97], [97], []⟩]
    [] [] ha hb
  refine ⟨hiff, fun hEq => ?_⟩
  have := hiff.mp hEq
  simp at this

/-!
## The `HashingReader` absorption stream
-/

/-- One-byte content: the first read fills `buf[0]` and absorbs the whole
buffer; the EOF read absorbs the unchanged buffer again. -/
theorem copyAbsorb_single (B : Nat) (hB : 1 ≤ B) (buf : List Nat) (r : Nat) :
    copyAbsorb B 2 buf [r] = (r :: buf.drop 1) ++ (r :: buf.drop 1) := by
  have hk : min B [r].length = 1 := by simp; omega
  rw [copyAbsorb]
  simp only [hk, show List.drop 1 [r] = [] from rfl, show List.take 1 [r] = [r] from rfl]
  rw [copyAbsorb]
  simp

/-- Streaming a single byte through the `HashingReader` absorbs two full
32 KiB buffers — 65536 bytes — into the hasher, not one byte. -/
theorem hashingCopyAbsorb_single_length (r : Nat) :
    (hashingCopyAbsorb [r]).length = 65536 := by
  have hB : 1 ≤ goCopyBufSize := by norm_num [goCopyBufSize]
  have h1 : hashingCopyAbsorb [r] = (r :: (List.replicate goCopyBufSize 0).drop 1) ++
      (r :: (List.replicate goCopyBufSize 0).drop 1) :=
    copyAbsorb_single goCopyBufSize hB _ r
  rw [h1, List.length_append, List.length_cons]
  rw [List.length_drop, List.length_replicate]
  have hG : goCopyBufSize = 32768 := rfl
  omega

/-- A package root holding one file "f" (byte 102) of mode 0644 with the
single-byte content "a" (97). -/
def fsOneA : Fs :=
  ⟨fun p => if p = [102] then some (0o644, [97]) else none, fun _ => []⟩

/-- C2: freezing `Path("f")` over a mode-0644 one-byte file "a" absorbs the
relative path and the three mode-octet bytes as claimed, and the committed
cache key, value and empty derivations match — but the hasher then absorbs
`hashingCopyAbsorb [97]` (two full 32 KiB buffers, because
`HashingReader.Read` hashes the whole buffer instead of `buf[:n]`), not
"exactly the file's content bytes".  The resulting hash stream differs
from the claimed `path ++ modeBytes ++ content`. -/
theorem path_freeze_absorbs_padding :
    freezeArg fsOneA (Arg.path [102]) =
      .ok (⟨hexEncode ([102] ++ modeBytes 0o644 ++ hashingCopyAbsorb [97]) ++ [47] ++ [102],
          [102] ++ modeBytes 0o644 ++ hashingCopyAbsorb [97], []⟩,
        [CacheEntry.file
          (hexEncode ([102] ++ modeBytes 0o644 ++ hashingCopyAbsorb [97]) ++ [47] ++ [102])
          0o644 [97]]) ∧
    ([102] ++ modeBytes 0o644 ++ hashingCopyAbsorb [97] : GoStr) ≠
      [102] ++ modeBytes 0o644 ++ [97] := by
  constructor
  · rw [freezeArg]
    rfl
  · intro hEq
    have h2 := congrArg List.length hEq
    simp only [List.length_append, hashingCopyAbsorb_single_length, modeBytes,
      List.length_cons, List.length_nil] at h2
    omega

/-!
## Glob matching
-/

/-- `GlobGroup.matches`: expand each pattern (skipping duplicate patterns),
concatenate, and sort the resolved paths. -/
def globMatches (f : Fs) (patterns : List GoStr) : List GoStr :=
  sortStrings ((dedupeAux [] patterns).map f.glob).flatten

/-- The `ArgValue.Hash` of a frozen `GlobGroup`. -/
def globArgHash (f : Fs) (gg : List GoStr) : Option GoStr :=
  argHashOf f (Arg.glob gg)

theorem globFreeze_eq (f : Fs) (gg : List GoStr) :
    freezeArg f (Arg.glob gg) =
      match globFiles f (globMatches f gg) [] [] with
      | .error e => .error e
      | .ok (h, files) =>
          .ok (⟨hexEncode h, h, []⟩, [CacheEntry.dir (hexEncode h) files]) := by
  rw [freezeArg]
  rfl

/-- A package root where two distinct patterns "1" and "2" both match the
single file "a" (mode 0644, content "h"). -/
def fsGlobC : Fs :=
  ⟨fun p => if p = [97] then some (0o644, [104]) else none,
    fun pat => if pat = [49] then [[97]] else if pat = [50] then [[97]] else []⟩

/-- The two glob groups expand to the same set of paths. -/
theorem globC_dedup_eq :
    (globMatches fsGlobC [[49], [50]]).dedup = (globMatches fsGlobC [[49]]).dedup := by
  have hm1 : globMatches fsGlobC [[49], [50]] = [[97], [97]] := by rfl
  have hm2 : globMatches fsGlobC [[49]] = [[97]] := by rfl
  rw [hm1, hm2]
  rfl

/-- But their directory-entry hashes differ: the duplicated match absorbs
the file twice. -/
theorem globC_hash_ne :
    globArgHash fsGlobC [[49], [50]] ≠ globArgHash fsGlobC [[49]] := by
  have hm1 : globMatches fsGlobC [[49], [50]] = [[97], [97]] := by rfl
  have hm2 : globMatches fsGlobC [[49]] = [[97]] := by rfl
  rw [globArgHash, globArgHash, argHashOf, argHashOf, globFreeze_eq, globFreeze_eq,
      hm1, hm2]
  have hf : fsGlobC.file [97] = some (0o644, [104]) := rfl
  simp only [globFiles, hf]
  simp only [List.nil_append]
  intro hEq
  rw [Option.some.injEq] at hEq
  have h2 := congrArg List.length hEq
  simp only [List.length_append, hashingCopyAbsorb_single_length] at h2
  have hmb : (modeBytes 0o644).length = 3 := rfl
  rw [hmb] at h2
  omega

/-- C8 counterexample: the glob groups `["1","2"]` and `["1"]` expand to
the same *set* of paths (just the file "a"), but dedup is by pattern, not
by resolved path, so the first group lists "a" twice; its directory hash
absorbs the file twice and differs from the second group's hash. -/
theorem glob_same_set_counterexample :
    (globMatches fsGlobC [[49], [50]]).dedup = (globMatches fsGlobC [[49]]).dedup ∧
    globArgHash fsGlobC [[49], [50]] ≠ globArgHash fsGlobC [[49]] :=
  ⟨globC_dedup_eq, globC_hash_ne⟩

/-- C8 (amended): two `GlobGroup`s whose pattern lists expand — before
sorting, after pattern-level dedup — to permutations of the same multiset
of file paths freeze identically (same hash, same value, same cache
entry): the sort makes the result independent of enumeration order.
Expanding to the same *set* is not sufficient when a path is matched by
multiple patterns (see the counterexample). -/
theorem glob_perm_freeze_eq (f : Fs) (gg1 gg2 : List GoStr)
    (hperm : List.Perm ((dedupeAux [] gg1).map f.glob).flatten
      ((dedupeAux [] gg2).map f.glob).flatten) :
    freezeArg f (Arg.glob gg1) = freezeArg f (Arg.glob gg2) := by
  have hm : globMatches f gg1 = globMatches f gg2 :=
    List.eq_of_perm_of_sorted
      (((List.perm_insertionSort goStrLe _).trans hperm).trans
        (List.perm_insertionSort goStrLe _).symm)
      (List.sorted_insertionSort goStrLe _)
      (List.sorted_insertionSort goStrLe _)
  rw [globFreeze_eq, globFreeze_eq, hm]

/-- A package root where pattern "1" enumerates paths a, b and pattern "2"
enumerates the same paths in the opposite order. -/
def fsGlobW : Fs :=
  ⟨fun _ => none,
    fun pat => if pat = [49] then [[97], [98]] else if pat = [50] then [[98], [97]] else []⟩

/-- C8 witness: the two enumeration orders freeze identically. -/
theorem glob_perm_freeze_eq_witness :
    freezeArg fsGlobW (Arg.glob [[49]]) = freezeArg fsGlobW (Arg.glob [[50]]) :=
  glob_perm_freeze_eq fsGlobW [[49]] [[50]] (by
    have h1 : ((dedupeAux [] [[49]]).map fsGlobW.glob).flatten = [[97], [98]] := rfl
    have h2 : ((dedupeAux [] [[50]]).map fsGlobW.glob).flatten = [[98], [97]] := rfl
    rw [h1, h2]
    exact List.Perm.swap [98] [97] [])

/-!
## BuildRecursive: cache-hit short-circuit and idempotent rebuild
-/

/-- The ids of a list of derivations. -/
def idsOf (l : List Derivation) : List GoStr := l.map Derivation.id

/-- A cache is hereditarily closed over a universe of derivations when the
presence of a derivation's id implies the presence of its whole closure's
ids (true of any cache populated only by completed `Build`s). -/
def HClosed (U : List Derivation) (C : List GoStr) : Prop :=
  ∀ x ∈ U, x.id ∈ C → ∀ y ∈ closure x, y.id ∈ C

/-- What one (successful) `BuildRecursive` run does to the state: it
appends one block Δ of freshly built ids to both logs and prepends it to
the cache; the ids in Δ are distinct, were not previously cached, and all
belong to the derivation's closure; afterwards the whole closure is
cached. -/
def BSpec (U univ : List Derivation) (s s2 : BState) : Prop :=
  ∃ Δ : List GoStr,
    s2.builds = s.builds ++ Δ ∧
    s2.commits = s.commits ++ Δ ∧
    s2.cache = Δ.reverse ++ s.cache ∧
    (∀ a ∈ Δ, a ∉ s.cache) ∧
    Δ.Nodup ∧
    (∀ a ∈ Δ, a ∈ idsOf univ) ∧
    HClosed U s2.cache ∧
    (∀ x ∈ univ, x.id ∈ s2.cache)

theorem closure_eq (i h : GoStr) (deps : List Derivation) (b : GoStr)
    (a e : List GoStr) :
    closure (.mk i h deps b a e) = .mk i h deps b a e :: closure.closureL deps := by
  rw [closure]

theorem self_mem_closure (d : Derivation) : d ∈ closure d := by
  cases d
  rw [closure_eq]
  exact List.mem_cons_self _ _

theorem closureL_cons (d : Derivation) (rest : List Derivation) :
    closure.closureL (d :: rest) = closure d ++ closure.closureL rest := by
  rw [closure.closureL]

mutual
theorem sizeOf_mem_closure :
    ∀ (d x : Derivation), x ∈ closure d → sizeOf x ≤ sizeOf d
  | .mk i h deps b a e, x, hx => by
      rw [closure_eq] at hx
      rcases List.mem_cons.mp hx with rfl | hx2
      · exact le_refl _
      · have h1 := sizeOf_mem_closureL deps x hx2
        have h2 : sizeOf deps < sizeOf (Derivation.mk i h deps b a e) := by
          simp <;> omega
        omega

theorem sizeOf_mem_closureL :
    ∀ (l : List Derivation) (x : Derivation), x ∈ closure.closureL l → sizeOf x ≤ sizeOf l
  | [], x, hx => by rw [closure.closureL] at hx; cases hx
  | d :: rest, x, hx => by
      rw [closureL_cons] at hx
      rcases List.mem_append.mp hx with h1 | h2
      · have h3 := sizeOf_mem_closure d x h1
        have h4 : sizeOf d < sizeOf (d :: rest) := by
          simp <;> omega
        omega
      · have h3 := sizeOf_mem_closureL rest x h2
        have h4 : sizeOf rest < sizeOf (d :: rest) := by
          simp <;> omega
        omega

end

theorem not_mem_closureL_self (i h : GoStr) (deps : List Derivation) (b : GoStr)
    (a e : List GoStr) : Derivation.mk i h deps b a e ∉ closure.closureL deps := by
  intro hm
  have h1 := sizeOf_mem_closureL deps _ hm
  have h2 : sizeOf deps < sizeOf (Derivation.mk i h deps b a e) := by
    simp <;> omega
  omega

theorem buildRec_eq (i h : GoStr) (deps : List Derivation) (b : GoStr)
    (a e : List GoStr) (s : BState) :
    buildRec (.mk i h deps b a e) s =
      if i ∈ s.cache then s else addBuild i (buildRec.buildRecL deps s) := by
  rw [buildRec]

/-- The main invariant, proved for derivations and dependency lists of
bounded size simultaneously. -/
theorem buildRec_spec_main (U : List Derivation)
    (hU : ∀ x ∈ U, ∀ y ∈ U, x.id = y.id → x = y) :
    ∀ n : Nat,
      (∀ d : Derivation, sizeOf d ≤ n → (∀ x ∈ closure d, x ∈ U) →
        ∀ s : BState, HClosed U s.cache → BSpec U (closure d) s (buildRec d s)) ∧
      (∀ l : List Derivation, sizeOf l ≤ n → (∀ x ∈ closure.closureL l, x ∈ U) →
        ∀ s : BState, HClosed U s.cache →
          BSpec U (closure.closureL l) s (buildRec.buildRecL l s)) := by
  intro n
  induction n with
  | zero =>
    constructor
    · intro d hsz
      exfalso
      cases d
      simp at hsz
    · intro l hsz
      exfalso
      cases l <;> simp at hsz
  | succ n ih =>
    obtain ⟨ihd, ihl⟩ := ih
    constructor
    · -- single derivation
      rintro ⟨i, h, deps, b, a, e⟩ hsz hsub s hsC
      rw [BSpec, buildRec_eq]
      by_cases hc : i ∈ s.cache
      · rw [if_pos hc]
        refine ⟨[], by simp, by simp, by simp, by simp, List.nodup_nil, by simp, hsC, ?_⟩
        have hdU : Derivation.mk i h deps b a e ∈ U :=
          hsub _ (self_mem_closure _)
        have hid : (Derivation.mk i h deps b a e).id = i := rfl
        exact fun y hy => hsC _ hdU (by rw [hid]; exact hc) y hy
      · rw [if_neg hc]
        have hszdeps : sizeOf deps ≤ n := by
          simp at hsz
          omega
        have hsubL : ∀ x ∈ closure.closureL deps, x ∈ U := by
          intro x hx
          exact hsub x (by rw [closure_eq]; exact List.mem_cons_of_mem _ hx)
        obtain ⟨ΔL, hb, hco, hca, hnotc, hnd, hids, hHC, hall⟩ :=
          ihl deps hszdeps hsubL s hsC
        have hdU : Derivation.mk i h deps b a e ∈ U := hsub _ (self_mem_closure _)
        have hinotin : i ∉ ΔL := by
          intro hiin
          obtain ⟨z, hz, hzid⟩ := List.mem_map.mp (hids i hiin)
          have hzU : z ∈ U := hsub z (by rw [closure_eq]; exact List.mem_cons_of_mem _ hz)
          have hzd : z = Derivation.mk i h deps b a e := hU z hzU _ hdU hzid
          rw [hzd] at hz
          exact not_mem_closureL_self i h deps b a e hz
        refine ⟨ΔL ++ [i], ?_, ?_, ?_, ?_, ?_, ?_, ?_, ?_⟩
        · simp [addBuild, hb]
        · simp [addBuild, hco]
        · simp [addBuild, hca]
        · intro x hx
          rcases List.mem_append.mp hx with hx1 | hx2
          · exact hnotc x hx1
          · rw [List.mem_singleton.mp hx2]
            exact hc
        · exact List.nodup_append.mpr ⟨hnd, List.nodup_singleton i,
            fun x hx1 hx2 => hinotin (by rwa [List.mem_singleton.mp hx2] at hx1)⟩
        · intro x hx
          rw [closure_eq, idsOf]
          rcases List.mem_append.mp hx with hx1 | hx2
          · exact List.mem_cons_of_mem _ (hids x hx1)
          · rw [List.mem_singleton.mp hx2]
            exact List.mem_cons_self _ _
        · -- HClosed for the new cache
          intro x hxU hxid y hy
          simp only [addBuild] at hxid ⊢
          rcases List.mem_cons.mp hxid with hxi | hxold
          · have hxd : x = Derivation.mk i h deps b a e := hU x hxU _ hdU hxi
            rw [hxd] at hy
            rw [closure_eq] at hy
            rcases List.mem_cons.mp hy with rfl | hy2
            · exact List.mem_cons_self _ _
            · exact List.mem_cons_of_mem _ (hall y hy2)
          · exact List.mem_cons_of_mem _ (hHC x hxU hxold y hy)
        · intro x hx
          simp only [addBuild]
          rw [closure_eq] at hx
          rcases List.mem_cons.mp hx with rfl | hx2
          · exact List.mem_cons_self _ _
          · exact List.mem_cons_of_mem _ (hall x hx2)
    · -- list of dependencies
      intro l hsz hsub s hsC
      cases l with
      | nil =>
        rw [buildRec.buildRecL]
        refine ⟨[], by simp, by simp, by simp, by simp, List.nodup_nil, by simp, hsC, ?_⟩
        intro x hx
        rw [closure.closureL] at hx
        cases hx
      | cons d rest =>
        rw [buildRec.buildRecL]
        have hszd : sizeOf d ≤ n := by
          simp at hsz
          omega
        have hszr : sizeOf rest ≤ n := by
          simp at hsz
          omega
        have hsubd : ∀ x ∈ closure d, x ∈ U := by
          intro x hx
          exact hsub x (by rw [closureL_cons]; exact List.mem_append_left _ hx)
        have hsubr : ∀ x ∈ closure.closureL rest, x ∈ U := by
          intro x hx
          exact hsub x (by rw [closureL_cons]; exact List.mem_append_right _ hx)
        obtain ⟨Δ1, hb1, hco1, hca1, hnotc1, hnd1, hids1, hHC1, hall1⟩ :=
          ihd d hszd hsubd s hsC
        obtain ⟨Δ2, hb2, hco2, hca2, hnotc2, hnd2, hids2, hHC2, hall2⟩ :=
          ihl rest hszr hsubr (buildRec d s) hHC1
        have hmono : ∀ x, x ∈ s.cache → x ∈ (buildRec d s).cache := by
          intro x hx
          rw [hca1]
          exact List.mem_append_right _ hx
        have hΔ1c : ∀ x ∈ Δ1, x ∈ (buildRec d s).cache := by
          intro x hx
          rw [hca1]
          exact List.mem_append_left _ (List.mem_reverse.mpr hx)
        refine ⟨Δ1 ++ Δ2, ?_, ?_, ?_, ?_, ?_, ?_, hHC2, ?_⟩
        · rw [hb2, hb1, List.append_assoc]
        · rw [hco2, hco1, List.append_assoc]
        · rw [hca2, hca1, List.reverse_append, List.append_assoc]
        · intro x hx
          rcases List.mem_append.mp hx with hx1 | hx2
          · exact hnotc1 x hx1
          · exact fun hxc => hnotc2 x hx2 (hmono x hxc)
        · exact List.nodup_append.mpr ⟨hnd1, hnd2,
            fun x hx1 hx2 => hnotc2 x hx2 (hΔ1c x hx1)⟩
        · intro x hx
          rw [closureL_cons, idsOf, List.map_append]
          rcases List.mem_append.mp hx with hx1 | hx2
          · exact List.mem_append_left _ (hids1 x hx1)
          · exact List.mem_append_right _ (hids2 x hx2)
        · intro x hx
          rw [closureL_cons] at hx
          rcases List.mem_append.mp hx with hx1 | hx2
          · rw [hca2]
            exact List.mem_append_right _ (hall1 x hx1)
          · exact hall2 x hx2

/-- C9: if a derivation's id is already cached, `BuildRecursive` returns
at once, leaving the state — cache, builder-invocation log and commit
log — untouched; and running it twice from an empty cache performs the
second run as a no-op while the first run invokes the builder and commits
the cache exactly once per derivation in the closure (the build log equals
the commit log, has no duplicates, and covers every closure id).  The
hypothesis — distinct derivations in the closure have distinct ids — is
the content-addressing guarantee the freezer provides. -/
theorem buildRecursive_idempotent (d : Derivation)
    (hU : ∀ x ∈ closure d, ∀ y ∈ closure d, x.id = y.id → x = y) :
    (∀ s : BState, d.id ∈ s.cache → buildRec d s = s) ∧
    buildRec d (buildRec d ⟨[], [], []⟩) = buildRec d ⟨[], [], []⟩ ∧
    (buildRec d ⟨[], [], []⟩).commits = (buildRec d ⟨[], [], []⟩).builds ∧
    (buildRec d ⟨[], [], []⟩).builds.Nodup ∧
    (∀ x ∈ closure d, x.id ∈ (buildRec d ⟨[], [], []⟩).builds) := by
  have hpart1 : ∀ s : BState, d.id ∈ s.cache → buildRec d s = s := by
    intro s hs
    cases d with
    | mk i h deps b a e =>
      have hs2 : i ∈ s.cache := hs
      rw [buildRec_eq, if_pos hs2]
  have hempty : HClosed (closure d) (⟨[], [], []⟩ : BState).cache := by
    intro x _ hx
    cases hx
  obtain ⟨Δ, hb, hco, hca, _, hnd, _, _, hall⟩ :=
    (buildRec_spec_main (closure d) hU (sizeOf d)).1 d (le_refl _)
      (fun x hx => hx) ⟨[], [], []⟩ hempty
  have hbuilds : (buildRec d ⟨[], [], []⟩).builds = Δ := by
    rw [hb]
    rfl
  have hmem : ∀ x ∈ closure d, x.id ∈ (buildRec d ⟨[], [], []⟩).builds := by
    intro x hx
    have h1 := hall x hx
    rw [hca] at h1
    rw [hbuilds]
    rcases List.mem_append.mp h1 with h2 | h2
    · exact List.mem_reverse.mp h2
    · cases h2
  have hsecond : buildRec d (buildRec d ⟨[], [], []⟩) = buildRec d ⟨[], [], []⟩ := by
    apply hpart1
    have h1 := hmem d (self_mem_closure d)
    rw [hbuilds] at h1
    rw [hca]
    exact List.mem_append_left _ (List.mem_reverse.mpr h1)
  have hco2 : (buildRec d ⟨[], [], []⟩).commits = (buildRec d ⟨[], [], []⟩).builds := by
    rw [hco, hb]
  have hnd2 : (buildRec d ⟨[], [], []⟩).builds.Nodup := by
    rw [hbuilds]
    exact hnd
  exact ⟨hpart1, hsecond, hco2, hnd2, hmem⟩

/-- C9 witness: a dependency-free derivation with id "a"; one run builds
and commits it once, the second run is a no-op. -/
theorem buildRecursive_idempotent_witness :
    (∀ s : BState, (Derivation.mk [97] [] [] [98] [] []).id ∈ s.cache →
      buildRec (Derivation.mk [97] [] [] [98] [] []) s = s) ∧
    buildRec (Derivation.mk [97] [] [] [98] [] [])
        (buildRec (Derivation.mk [97] [] [] [98] [] []) ⟨[], [], []⟩) =
      buildRec (Derivation.mk [97] [] [] [98] [] []) ⟨[], [], []⟩ ∧
    (buildRec (Derivation.mk [97] [] [] [98] [] []) ⟨[], [], []⟩).commits =
      (buildRec (Derivation.mk [97] [] [] [98] [] []) ⟨[], [], []⟩).builds ∧
    (buildRec (Derivation.mk [97] [] [] [98] [] []) ⟨[], [], []⟩).builds.Nodup ∧
    (∀ x ∈ closure (Derivation.mk [97] [] [] [98] [] []),
      x.id ∈ (buildRec (Derivation.mk [97] [] [] [98] [] []) ⟨[], [], []⟩).builds) :=
  buildRecursive_idempotent (Derivation.mk [97] [] [] [98] [] []) (by
    have hcl : closure (Derivation.mk [97] [] [] [98] [] []) =
        [Derivation.mk [97] [] [] [98] [] []] := by
      rw [closure_eq, closure.closureL]
    intro x hx y hy _
    rw [hcl] at hx hy
    rw [List.mem_singleton.mp hx, List.mem_singleton.mp hy])

end G8r
